import Mathlib

/-!
Verification of the honey-css tokenizer / parser / stringifier / selector
resolver.  All definitions are shallow embeddings of the TypeScript source:
strings are `String` over `List Char`, token streams are `List Tok`, the
stateful token cursor is modelled by passing the remaining token list, and
the recursive-descent parser is fuelled (fuel larger than a linear bound in
the token count is proved sufficient).
-/

set_option maxHeartbeats 1000000

/-- The double-quote character, written by code to avoid literal quoting noise. -/
def dquote : Char := Char.ofNat 34

/-- The single-quote character. -/
def squote : Char := Char.ofNat 39

/-- The backquote character. -/
def backquote : Char := Char.ofNat 96

/-- JavaScript regular-expression whitespace (`\s`), used by `skipWhitespace`
and by `String.prototype.trim`. -/
def isSpace (c : Char) : Bool :=
  c == ' ' || c == '\t' || c == '\n' || c == '\r' ||
  c.toNat == 11 || c.toNat == 12 || c.toNat == 160 || c.toNat == 5760 ||
  (8192 ≤ c.toNat && c.toNat ≤ 8202) ||
  c.toNat == 8232 || c.toNat == 8233 || c.toNat == 8239 ||
  c.toNat == 8287 || c.toNat == 12288 || c.toNat == 65279

/-- Remove leading and trailing JS whitespace from a character list. -/
def trimChars (l : List Char) : List Char :=
  ((l.dropWhile isSpace).reverse.dropWhile isSpace).reverse

/-- JavaScript `String.prototype.trim`. -/
def jsTrim (s : String) : String :=
  String.mk (trimChars s.toList)

/-- `isBoundaryChar` from `tokenize-css.ts`: characters that terminate a
plain text read. -/
def isBoundaryChar (ch : Char) : Bool :=
  ch == '{' || ch == '}' || ch == ':' || ch == ';' || ch == '@' ||
  ch == '(' || ch == dquote || ch == squote || ch == '/'

/-- Token type names (`HoneyCssTokenType`). -/
inductive TokType where
  | braceOpen | braceClose | colon | semicolon | at | text | params | string
deriving DecidableEq, Repr

/-- Tokens (`HoneyCssToken`): structural tokens carry no payload, value
tokens carry a string payload. -/
inductive Tok where
  | braceOpen : Tok
  | braceClose : Tok
  | colon : Tok
  | semicolon : Tok
  | at : Tok
  | text : String → Tok
  | params : String → Tok
  | string : String → Tok
deriving DecidableEq, Repr

/-- The `type` discriminant of a token. -/
def Tok.type : Tok → TokType
  | .braceOpen => .braceOpen
  | .braceClose => .braceClose
  | .colon => .colon
  | .semicolon => .semicolon
  | .at => .at
  | .text _ => .text
  | .params _ => .params
  | .string _ => .string

/-- The `value` field of a token (empty for structural tokens, which carry
none in the source). -/
def Tok.value : Tok → String
  | .text v => v
  | .params v => v
  | .string v => v
  | _ => ""

/-- `skipSingleLineComment`, after the leading `//` has been dropped:
advance to just past the next newline, or to EOF. -/
def dropLineComment : List Char → List Char
  | [] => []
  | c :: rest => if c = '\n' then rest else dropLineComment rest

/-- `skipMultiLineComment`, after the leading characters have been dropped:
advance to just past the next comment terminator, or to EOF. -/
def dropBlockComment : List Char → List Char
  | '*' :: '/' :: rest => rest
  | [] => []
  | _ :: rest => dropBlockComment rest

/-- `readString`, after the opening quote has been consumed: returns the
unwrapped payload (escape backslashes retained) and the remaining input. -/
def readStringGo (quote : Char) : List Char → List Char × List Char
  | [] => ([], [])
  | c :: rest =>
    if c = '\\' then
      match rest with
      | [] => (['\\'], [])
      | e :: rest2 =>
        let r := readStringGo quote rest2
        ('\\' :: e :: r.1, r.2)
    else if c = quote then ([], rest)
    else
      let r := readStringGo quote rest
      (c :: r.1, r.2)

/-- `readParamsGroup`: depth-counting read of a balanced parenthesis group,
starting at the opening parenthesis; returns the group including the outer
parentheses, and the remaining input. -/
def readParamsGo (depth : Int) : List Char → List Char × List Char
  | [] => ([], [])
  | c :: rest =>
    let d := if c = '(' then depth + 1 else if c = ')' then depth - 1 else depth
    if d = 0 then ([c], rest)
    else
      let r := readParamsGo d rest
      (c :: r.1, r.2)

/-- One iteration of the tokenizer main loop: skip whitespace, then either
report EOF (`none`) or consume at least one character, optionally emitting a
token. -/
def tokStep (cs : List Char) : Option (Option Tok × List Char) :=
  match cs.dropWhile isSpace with
  | [] => none
  | c :: rest =>
    if c = '/' ∧ rest.head? = some '/' then some (none, dropLineComment rest.tail)
    else if c = '/' ∧ rest.head? = some '*' then some (none, dropBlockComment rest.tail)
    else if c = '{' then some (some Tok.braceOpen, rest)
    else if c = '}' then some (some Tok.braceClose, rest)
    else if c = ':' then some (some Tok.colon, rest)
    else if c = ';' then some (some Tok.semicolon, rest)
    else if c = '@' then some (some Tok.at, rest)
    else if c = '(' then
      let r := readParamsGo 0 (c :: rest)
      some (some (Tok.params (String.mk r.1)), r.2)
    else if c = dquote ∨ c = squote then
      let r := readStringGo c rest
      some (some (Tok.string (String.mk r.1)), r.2)
    else
      let raw := (c :: rest).takeWhile (fun ch => !isBoundaryChar ch)
      let rem := (c :: rest).dropWhile (fun ch => !isBoundaryChar ch)
      let v := trimChars raw
      if v ≠ [] then some (some (Tok.text (String.mk v)), rem)
      else some (none, rem.tail)

/-- The tokenizer main loop, fuelled; `tokStep` consumes at least one
character per iteration, so any fuel at least the input length is enough. -/
def tokenizeLoop : Nat → List Char → List Tok
  | 0, _ => []
  | fuel + 1, cs =>
    match tokStep cs with
    | none => []
    | some (none, rest) => tokenizeLoop fuel rest
    | some (some t, rest) => t :: tokenizeLoop fuel rest

/-- `tokenizeCss`: single-pass tokenizer over the raw input string. -/
def tokenizeCss (input : String) : List Tok :=
  tokenizeLoop input.toList.length input.toList

theorem length_dropWhile_le {α : Type} (p : α → Bool) (l : List α) :
    (l.dropWhile p).length ≤ l.length :=
  (List.dropWhile_sublist p (l := l)).length_le

theorem length_dropLineComment_le (l : List Char) :
    (dropLineComment l).length ≤ l.length := by
  induction l with
  | nil => simp [dropLineComment]
  | cons c rest ih =>
    simp only [dropLineComment]
    split
    · simp
    · exact le_trans ih (by simp)

theorem length_dropBlockComment_le (l : List Char) :
    (dropBlockComment l).length ≤ l.length := by
  induction l using dropBlockComment.induct with
  | case1 rest =>
    simp only [dropBlockComment, List.length_cons]
    omega
  | case2 => simp [dropBlockComment]
  | case3 c rest h ih =>
    rw [dropBlockComment]
    · exact le_trans ih (by simp)
    · exact h

theorem length_readStringGo_le (q : Char) (l : List Char) :
    (readStringGo q l).2.length ≤ l.length := by
  match l with
  | [] => simp [readStringGo]
  | c :: rest =>
    rw [readStringGo.eq_def]
    dsimp only
    by_cases hc : c = '\\'
    · rw [if_pos hc]
      match rest with
      | [] => simp
      | e :: rest2 =>
        dsimp only
        have := length_readStringGo_le q rest2
        simp only [List.length_cons]
        omega
    · rw [if_neg hc]
      by_cases hq : c = q
      · rw [if_pos hq]; simp
      · rw [if_neg hq]
        dsimp only
        have := length_readStringGo_le q rest
        simp only [List.length_cons]
        omega
termination_by l.length

theorem length_readParamsGo_le (d : Int) (l : List Char) :
    (readParamsGo d l).2.length ≤ l.length := by
  induction l generalizing d with
  | nil => simp [readParamsGo]
  | cons c rest ih =>
    rw [readParamsGo]
    dsimp only
    by_cases h0 : (if c = '(' then d + 1 else if c = ')' then d - 1 else d) = 0
    · rw [if_pos h0]; simp
    · rw [if_neg h0]
      dsimp only
      exact le_trans (ih _) (by simp)

theorem length_readParamsGo_lt (d : Int) (c : Char) (l : List Char) :
    (readParamsGo d (c :: l)).2.length < l.length + 1 := by
  rw [readParamsGo]
  dsimp only
  by_cases h0 : (if c = '(' then d + 1 else if c = ')' then d - 1 else d) = 0
  · rw [if_pos h0]; simp
  · rw [if_neg h0]
    dsimp only
    exact Nat.lt_succ_of_le (length_readParamsGo_le _ l)

theorem tokStep_progress (cs : List Char) (o : Option Tok) (rest : List Char)
    (h : tokStep cs = some (o, rest)) : rest.length < cs.length := by
  have hds : (cs.dropWhile isSpace).length ≤ cs.length := length_dropWhile_le isSpace cs
  unfold tokStep at h
  rcases hmatch : cs.dropWhile isSpace with _ | ⟨c, ds⟩
  · rw [hmatch] at h; exact absurd h (by simp)
  rw [hmatch] at h hds
  dsimp only at h
  simp only [List.length_cons] at hds
  have hlt : ds.length < cs.length := by omega
  have hle : ds.length + 1 ≤ cs.length := by omega
  have htail : ds.tail.length ≤ ds.length := by
    rw [List.length_tail]; omega
  split at h
  · -- line comment
    simp only [Option.some.injEq, Prod.mk.injEq] at h
    obtain ⟨-, hr⟩ := h
    subst hr
    have := length_dropLineComment_le ds.tail
    omega
  split at h
  · -- block comment
    simp only [Option.some.injEq, Prod.mk.injEq] at h
    obtain ⟨-, hr⟩ := h
    subst hr
    have := length_dropBlockComment_le ds.tail
    omega
  split at h
  · simp only [Option.some.injEq, Prod.mk.injEq] at h
    obtain ⟨-, hr⟩ := h; subst hr; omega
  split at h
  · simp only [Option.some.injEq, Prod.mk.injEq] at h
    obtain ⟨-, hr⟩ := h; subst hr; omega
  split at h
  · simp only [Option.some.injEq, Prod.mk.injEq] at h
    obtain ⟨-, hr⟩ := h; subst hr; omega
  split at h
  · simp only [Option.some.injEq, Prod.mk.injEq] at h
    obtain ⟨-, hr⟩ := h; subst hr; omega
  split at h
  · simp only [Option.some.injEq, Prod.mk.injEq] at h
    obtain ⟨-, hr⟩ := h; subst hr; omega
  split at h
  · -- params group
    simp only [Option.some.injEq, Prod.mk.injEq] at h
    obtain ⟨-, hr⟩ := h
    subst hr
    have := length_readParamsGo_lt 0 c ds
    omega
  split at h
  · -- quoted string
    simp only [Option.some.injEq, Prod.mk.injEq] at h
    obtain ⟨-, hr⟩ := h
    subst hr
    have := length_readStringGo_le c ds
    omega
  · -- text run or fallback
    split at h
    · simp only [Option.some.injEq, Prod.mk.injEq] at h
      obtain ⟨-, hr⟩ := h
      subst hr
      -- a nonempty trimmed value means the raw run kept its first character
      rename_i hv
      have hraw : (c :: ds).takeWhile (fun ch => !isBoundaryChar ch) ≠ [] := by
        intro hnil
        rw [hnil] at hv
        exact hv rfl
      have hpc : (!isBoundaryChar c) = true := by
        by_contra hb
        simp only [List.takeWhile] at hraw
        rw [Bool.not_eq_true] at hb
        rw [hb] at hraw
        exact hraw rfl
      have hdrop : (c :: ds).dropWhile (fun ch => !isBoundaryChar ch)
          = ds.dropWhile (fun ch => !isBoundaryChar ch) := by
        simp only [List.dropWhile]
        rw [hpc]
      have := length_dropWhile_le (fun ch => !isBoundaryChar ch) ds
      rw [hdrop]
      omega
    · simp only [Option.some.injEq, Prod.mk.injEq] at h
      obtain ⟨-, hr⟩ := h
      subst hr
      have h1 : ((c :: ds).dropWhile (fun ch => !isBoundaryChar ch)).length ≤ ds.length + 1 :=
        length_dropWhile_le _ (c :: ds)
      have h2 :=
        List.length_tail ((c :: ds).dropWhile (fun ch => !isBoundaryChar ch))
      omega

theorem tokenizeLoop_congr (f g : Nat) (cs : List Char)
    (hf : cs.length ≤ f) (hg : cs.length ≤ g) :
    tokenizeLoop f cs = tokenizeLoop g cs := by
  induction f using Nat.strong_induction_on generalizing g cs with
  | _ f ih =>
    match f, g with
    | 0, 0 => rfl
    | 0, g + 1 =>
      have : cs = [] := List.length_eq_zero.mp (Nat.le_zero.mp hf)
      subst this
      rfl
    | f + 1, 0 =>
      have : cs = [] := List.length_eq_zero.mp (Nat.le_zero.mp hg)
      subst this
      rfl
    | f + 1, g + 1 =>
      simp only [tokenizeLoop]
      rcases hstep : tokStep cs with _ | ⟨o, rest⟩
      · rfl
      have hlt := tokStep_progress cs o rest hstep
      cases o with
      | none =>
        dsimp only
        exact ih f (Nat.lt_succ_self f) g rest (by omega) (by omega)
      | some t =>
        dsimp only
        rw [ih f (Nat.lt_succ_self f) g rest (by omega) (by omega)]

/-- The `type` of the token the cursor would `peek`, used for the parser's
lookahead guards. -/
def peekType (ts : List Tok) : Option TokType := ts.head?.map Tok.type

/-- `cursor.expect(type)`: consume the next token, failing at EOF or on a
type mismatch.  This is the only failure point of the pipeline. -/
def expect (t : TokType) (ts : List Tok) : Except String (Tok × List Tok) :=
  match ts with
  | [] => Except.error ("honey-css: expected a token type but reached end of input.")
  | tok :: rest =>
    if tok.type = t then Except.ok (tok, rest)
    else Except.error ("honey-css: expected one token type but got another.")

/-- One accumulation step of `cursor.readUntil`: `text` tokens are preceded
by a single space when the accumulator is nonempty, `string` tokens are
re-wrapped in double quotes, `params` tokens appended verbatim, all other
token types contribute nothing. -/
def readUntilAcc (acc : List Char) (t : Tok) : List Char :=
  match t with
  | Tok.text v => (if acc = [] then acc else acc ++ [' ']) ++ v.toList
  | Tok.string v => acc ++ (dquote :: v.toList ++ [dquote])
  | Tok.params v => acc ++ v.toList
  | _ => acc

/-- Loop of `cursor.readUntil`: accumulate until a stop-type token (left
unconsumed) or EOF. -/
def readUntilGo (stop : List TokType) (acc : List Char) : List Tok → List Char × List Tok
  | [] => (acc, [])
  | t :: rest =>
    if t.type ∈ stop then (acc, t :: rest)
    else readUntilGo stop (readUntilAcc acc t) rest

/-- `cursor.readUntil(stopTypes)`: trimmed concatenation of the consumed
token payloads, together with the remaining token stream. -/
def readUntil (stop : List TokType) (ts : List Tok) : String × List Tok :=
  let r := readUntilGo stop [] ts
  (String.mk (trimChars r.1), r.2)

/-- Loop of `readCssSelector`: push `:` for `colon`, payloads for `text` and
`params`, quote-wrapped payloads for `string`; stop (without consuming) on
braces, unsupported token types and EOF. -/
def readCssSelectorGo (parts : List Char) : List Tok → List Char × List Tok
  | [] => (parts, [])
  | Tok.colon :: rest => readCssSelectorGo (parts ++ [':']) rest
  | Tok.text v :: rest => readCssSelectorGo (parts ++ v.toList) rest
  | Tok.params v :: rest => readCssSelectorGo (parts ++ v.toList) rest
  | Tok.string v :: rest => readCssSelectorGo (parts ++ (dquote :: v.toList ++ [dquote])) rest
  | tok :: rest => (parts, tok :: rest)

/-- `readCssSelector`: reconstructed selector text (joined parts, trimmed)
and the remaining token stream. -/
def readCssSelector (ts : List Tok) : String × List Tok :=
  let r := readCssSelectorGo [] ts
  (String.mk (trimChars r.1), r.2)

/-- `readCssKeyOrSelector`: a leading `colon` means a selector; otherwise a
selector is read speculatively and kept only when `braceOpen` follows, else
the cursor is reset to the mark and a declaration key is read with
`readUntil`. -/
def readCssKeyOrSelector (ts : List Tok) : String × List Tok :=
  match ts with
  | [] => ("", [])
  | first :: _ =>
    if first.type = TokType.colon then readCssSelector ts
    else
      let cand := readCssSelector ts
      if peekType cand.2 = some TokType.braceOpen then cand
      else
        readUntil
          [TokType.colon, TokType.braceOpen, TokType.semicolon,
           TokType.braceClose, TokType.at] ts

theorem readUntilGo_eq (stop : List TokType) (acc : List Char) (ts : List Tok) :
    readUntilGo stop acc ts =
      ((ts.takeWhile (fun t => !decide (t.type ∈ stop))).foldl readUntilAcc acc,
       ts.dropWhile (fun t => !decide (t.type ∈ stop))) := by
  induction ts generalizing acc with
  | nil => simp [readUntilGo]
  | cons t rest ih =>
    rw [readUntilGo]
    by_cases hs : t.type ∈ stop
    · rw [if_pos hs]
      simp [List.takeWhile_cons, List.dropWhile_cons, hs]
    · rw [if_neg hs]
      rw [ih]
      simp [List.takeWhile_cons, List.dropWhile_cons, hs]

theorem length_readUntil_le (stop : List TokType) (ts : List Tok) :
    (readUntil stop ts).2.length ≤ ts.length := by
  unfold readUntil
  rw [readUntilGo_eq]
  exact length_dropWhile_le _ ts

theorem length_readCssSelectorGo_le (acc : List Char) (ts : List Tok) :
    (readCssSelectorGo acc ts).2.length ≤ ts.length := by
  induction ts generalizing acc with
  | nil => simp [readCssSelectorGo]
  | cons t rest ih =>
    cases t
    all_goals simp only [readCssSelectorGo, List.length_cons]
    all_goals first
      | omega
      | exact le_trans (ih _) (by omega)

theorem length_readCssSelector_le (ts : List Tok) :
    (readCssSelector ts).2.length ≤ ts.length :=
  length_readCssSelectorGo_le [] ts

theorem length_readCssKeyOrSelector_le (ts : List Tok) :
    (readCssKeyOrSelector ts).2.length ≤ ts.length := by
  match ts with
  | [] => simp [readCssKeyOrSelector]
  | first :: rest =>
    rw [readCssKeyOrSelector]
    dsimp only
    by_cases hc : first.type = TokType.colon
    · rw [if_pos hc]
      exact length_readCssSelector_le _
    · rw [if_neg hc]
      by_cases hb : peekType (readCssSelector (first :: rest)).2 = some TokType.braceOpen
      · rw [if_pos hb]
        exact length_readCssSelector_le _
      · rw [if_neg hb]
        exact length_readUntil_le _ _

/-- AST nodes (`HoneyCssAstNode`): the stylesheet root, rules, declarations
and at-rules.  For an at-rule, `body = none` is the directive form,
`body = some []` an explicitly empty block, `body = some ns` a populated
block; `params = none` models the absent (`undefined`) params field. -/
inductive Node where
  | stylesheet : List Node → Node
  | rule : String → List Node → Node
  | declaration : String → String → Node
  | atRule : String → Option String → Option (List Node) → Node

/-- The root node type returned by `parseCss` (`HoneyCssAstStylesheetNode`). -/
structure Stylesheet where
  body : List Node

/-- The five ASCII whitespace characters tested character-by-character by
`parseAtRuleHeader`. -/
def isHeaderWs (c : Char) : Bool :=
  c == ' ' || c == '\t' || c == '\n' || c == '\r' || c.toNat == 12

/-- `parseAtRuleHeader` (advanced variant): trim, take the name up to the
first ASCII whitespace or opening parenthesis, skip whitespace only, and
return the rest as params (absent when empty). -/
def parseAtRuleHeader (header : String) : String × Option String :=
  let normalized := jsTrim header
  if normalized = "" then ("", none)
  else
    let cs := normalized.toList
    let name := cs.takeWhile (fun c => !(isHeaderWs c || c == '('))
    let rest := (cs.dropWhile (fun c => !(isHeaderWs c || c == '('))).dropWhile isHeaderWs
    (String.mk name, if rest = [] then none else some (String.mk rest))

/-- `parseCssDeclaration`: expect the `colon`, read the value up to
`semicolon` or `braceClose`, and consume an optional trailing semicolon. -/
def parseCssDeclaration (prop : String) (ts : List Tok) : Except String (Node × List Tok) :=
  match expect TokType.colon ts with
  | Except.error e => Except.error e
  | Except.ok r =>
    let v := readUntil [TokType.semicolon, TokType.braceClose] r.2
    let rest := if peekType v.2 = some TokType.semicolon then v.2.tail else v.2
    Except.ok (Node.declaration prop v.1, rest)

mutual

/-- `parseCssNodes`: the shared grammar loop, for the root level
(`stopAtBraceClose = false`) and for block bodies (`true`).  The fuel is an
artifact of the embedding; any fuel above `3 * ts.length` is enough. -/
def parseCssNodes : Nat → Bool → List Tok → Except String (List Node × List Tok)
  | 0, _, _ => Except.error ("honey-css: parser fuel exhausted.")
  | fuel + 1, stopAtBraceClose, ts =>
    match ts with
    | [] => Except.ok ([], [])
    | tok :: rest =>
      if stopAtBraceClose ∧ tok.type = TokType.braceClose then Except.ok ([], rest)
      else if tok.type = TokType.semicolon then parseCssNodes fuel stopAtBraceClose rest
      else if tok.type = TokType.at then
        match parseCssAtRule fuel (tok :: rest) with
        | Except.error e => Except.error e
        | Except.ok r =>
          match parseCssNodes fuel stopAtBraceClose r.2 with
          | Except.error e => Except.error e
          | Except.ok r2 => Except.ok (r.1 :: r2.1, r2.2)
      else
        let ks := readCssKeyOrSelector (tok :: rest)
        if ks.1 = "" then parseCssNodes fuel stopAtBraceClose ks.2.tail
        else if peekType ks.2 = some TokType.colon then
          match parseCssDeclaration ks.1 ks.2 with
          | Except.error e => Except.error e
          | Except.ok r =>
            match parseCssNodes fuel stopAtBraceClose r.2 with
            | Except.error e => Except.error e
            | Except.ok r2 => Except.ok (r.1 :: r2.1, r2.2)
        else if peekType ks.2 = some TokType.braceOpen then
          match parseCssRule fuel ks.1 ks.2 with
          | Except.error e => Except.error e
          | Except.ok r =>
            match parseCssNodes fuel stopAtBraceClose r.2 with
            | Except.error e => Except.error e
            | Except.ok r2 => Except.ok (r.1 :: r2.1, r2.2)
        else parseCssNodes fuel stopAtBraceClose ks.2.tail

/-- `parseCssBlock`: block-mode entry to the grammar loop; stops at the
closing brace, consuming it. -/
def parseCssBlock : Nat → List Tok → Except String (List Node × List Tok)
  | 0, _ => Except.error ("honey-css: parser fuel exhausted.")
  | fuel + 1, ts => parseCssNodes fuel true ts

/-- `parseCssRule`: expect the `braceOpen` and parse the body as a block. -/
def parseCssRule : Nat → String → List Tok → Except String (Node × List Tok)
  | 0, _, _ => Except.error ("honey-css: parser fuel exhausted.")
  | fuel + 1, selector, ts =>
    match expect TokType.braceOpen ts with
    | Except.error e => Except.error e
    | Except.ok r =>
      match parseCssBlock fuel r.2 with
      | Except.error e => Except.error e
      | Except.ok rb => Except.ok (Node.rule selector rb.1, rb.2)

/-- `parseCssAtRule` (advanced variant of `parse-css-at-rule.ts`): expect
`at`, read the header up to `semicolon` or `braceOpen`, split it into name
and initial params, merge a pending explicit `params` token, then parse a
block body, consume a directive semicolon, or fall through at EOF. -/
def parseCssAtRule : Nat → List Tok → Except String (Node × List Tok)
  | 0, _ => Except.error ("honey-css: parser fuel exhausted.")
  | fuel + 1, ts =>
    match expect TokType.at ts with
    | Except.error e => Except.error e
    | Except.ok r =>
      let hv := readUntil [TokType.semicolon, TokType.braceOpen] r.2
      let header := parseAtRuleHeader hv.1
      let merged : Except String (Option String × List Tok) :=
        if peekType hv.2 = some TokType.params then
          match expect TokType.params hv.2 with
          | Except.error e => Except.error e
          | Except.ok rp =>
            Except.ok
              ((match header.2 with
                | some p => some (p ++ rp.1.value)
                | none => some rp.1.value), rp.2)
        else Except.ok (header.2, hv.2)
      match merged with
      | Except.error e => Except.error e
      | Except.ok pm =>
        if peekType pm.2 = some TokType.braceOpen then
          match parseCssBlock fuel pm.2 with
          | Except.error e => Except.error e
          | Except.ok rb => Except.ok (Node.atRule header.1 pm.1 (some rb.1), rb.2)
        else if peekType pm.2 = some TokType.semicolon then
          Except.ok (Node.atRule header.1 pm.1 none, pm.2.tail)
        else
          Except.ok (Node.atRule header.1 pm.1 none, pm.2)

end

/-- `parseCss`: tokenize, then run the grammar loop at the root level with
sufficient fuel. -/
def parseCss (input : String) : Except String Stylesheet :=
  let ts := tokenizeCss input
  match parseCssNodes (3 * ts.length + 1) false ts with
  | Except.error e => Except.error e
  | Except.ok r => Except.ok ⟨r.1⟩

/-- The ampersand parent-reference character. -/
def ampChar : Char := '&'

/-- The comma character. -/
def commaChar : Char := ','

/-- The `params` prefix of a stringified at-rule: a single space plus the
params when present and nonempty (JS truthiness), else nothing. -/
def atRuleParams : Option String → String
  | some p => if p = "" then "" else " " ++ p
  | none => ""

mutual

/-- `stringifyNode`: compact output per node; empty-value declarations and
empty-body rules and block at-rules collapse to the empty string, directive
at-rules are always emitted, unknown shapes (the stylesheet tag) emit
nothing. -/
def stringifyNode : Node → String
  | Node.declaration prop v =>
    let value := jsTrim v
    if value = "" then "" else prop ++ ":" ++ value ++ ";"
  | Node.rule selector body =>
    let b := stringifyList body
    if b = "" then "" else selector ++ "\x7b" ++ b ++ "\x7d"
  | Node.atRule name params bodyOpt =>
    match bodyOpt with
    | none => "@" ++ name ++ atRuleParams params ++ ";"
    | some body =>
      let b := stringifyList body
      if b = "" then ""
      else "@" ++ name ++ atRuleParams params ++ "\x7b" ++ b ++ "\x7d"
  | Node.stylesheet _ => ""

/-- `body.map(stringifyNode).join('')` used by the rule and at-rule cases. -/
def stringifyList : List Node → String
  | [] => ""
  | n :: rest => stringifyNode n ++ stringifyList rest

end

/-- `stringifyCss`: stringify the top-level children, drop the empty chunks,
and concatenate. -/
def stringifyCss (sheet : Stylesheet) : String :=
  String.join ((sheet.body.map stringifyNode).filter (fun s => s != ""))

/-- Scanner loop of `forEachTopLevelSelector`: splits on commas that are
outside parentheses, brackets, quoted strings and escape sequences; parts
are trimmed and empty parts dropped. -/
def tlpGo : List Char → List Char → Int → Int → Option Char → Bool → List String
  | [], cur, _, _, _, _ =>
    let last := trimChars cur
    if last = [] then [] else [String.mk last]
  | c :: rest, cur, parenDepth, bracketDepth, currentQuote, isEscapeSeq =>
    if isEscapeSeq then tlpGo rest (cur ++ [c]) parenDepth bracketDepth currentQuote false
    else if c = '\\' then tlpGo rest (cur ++ [c]) parenDepth bracketDepth currentQuote true
    else
      match currentQuote with
      | some q =>
        if c = q then tlpGo rest (cur ++ [c]) parenDepth bracketDepth none false
        else tlpGo rest (cur ++ [c]) parenDepth bracketDepth (some q) false
      | none =>
        if c = dquote ∨ c = squote then
          tlpGo rest (cur ++ [c]) parenDepth bracketDepth (some c) false
        else if c = '(' then tlpGo rest (cur ++ [c]) (parenDepth + 1) bracketDepth none false
        else if c = ')' then tlpGo rest (cur ++ [c]) (parenDepth - 1) bracketDepth none false
        else if c = '[' then tlpGo rest (cur ++ [c]) parenDepth (bracketDepth + 1) none false
        else if c = ']' then tlpGo rest (cur ++ [c]) parenDepth (bracketDepth - 1) none false
        else if c = commaChar ∧ parenDepth = 0 ∧ bracketDepth = 0 then
          let part := trimChars cur
          if part = [] then tlpGo rest [] parenDepth bracketDepth none false
          else String.mk part :: tlpGo rest [] parenDepth bracketDepth none false
        else tlpGo rest (cur ++ [c]) parenDepth bracketDepth none false

/-- `forEachTopLevelSelector`, collected into the list of its callback
arguments. -/
def topLevelParts (input : String) : List String :=
  tlpGo input.toList [] 0 0 none false

/-- The `GetSubstitution` scan of a string replacement template (ECMAScript
`String.prototype.replaceAll` with a string pattern, so no capture groups):
a dollar introduces `$$` (a literal dollar), `$&` (the matched substring),
a dollar-backquote (the part of the target before the match), a
dollar-quote (the part after the match); `$<` is kept literally since named
captures are undefined, and any other dollar is literal (which also covers
`$n` with an empty capture list, whose literal passthrough yields the same
output). -/
def getSubstitutionGo (matched before after : List Char) : List Char → List Char
  | [] => []
  | c :: rest =>
    if c = '$' then
      match rest with
      | [] => ['$']
      | c2 :: rest2 =>
        if c2 = '$' then '$' :: getSubstitutionGo matched before after rest2
        else if c2 = '&' then matched ++ getSubstitutionGo matched before after rest2
        else if c2 = backquote then before ++ getSubstitutionGo matched before after rest2
        else if c2 = squote then after ++ getSubstitutionGo matched before after rest2
        else if c2 = '<' then '$' :: '<' :: getSubstitutionGo matched before after rest2
        else '$' :: getSubstitutionGo matched before after (c2 :: rest2)
    else c :: getSubstitutionGo matched before after rest

/-- The scan of `s.replaceAll(search, rep)` for a single-character search
pattern: each occurrence of the search character is replaced by the
replacement template processed through `getSubstitutionGo`, with the match
prefix and suffix taken in the original target string. -/
def replaceAllCharGo (search : Char) (rep : List Char) (before : List Char) :
    List Char → List Char
  | [] => []
  | c :: rest =>
    if c = search then
      getSubstitutionGo [search] before rest rep
        ++ replaceAllCharGo search rep (before ++ [c]) rest
    else c :: replaceAllCharGo search rep (before ++ [c]) rest

/-- `s.replaceAll(search, rep)` for a single-character search pattern. -/
def replaceAllChar (s : String) (search : Char) (rep : String) : String :=
  String.mk (replaceAllCharGo search rep.toList [] s.toList)

/-- `Array.prototype.join` with a separator. -/
def joinSep (sep : String) : List String → String
  | [] => ""
  | [x] => x
  | x :: xs => x ++ sep ++ joinSep sep xs

/-- Body of the resolver's nested loops: substitute the parent part for `&`,
or build a descendant selector. -/
def resolvePair (parentPart childPart : String) : String :=
  if ampChar ∈ childPart.toList then replaceAllChar childPart ampChar parentPart
  else parentPart ++ " " ++ childPart

/-- `resolveCssSelector`, current variant with the no-comma fast path. -/
def resolveCssSelector (selector parent : String) : String :=
  let childSelector := jsTrim selector
  if childSelector = "" then ""
  else
    let parentSelector := jsTrim parent
    if parentSelector = "" then childSelector
    else
      if ¬(commaChar ∈ parentSelector.toList) ∧ ¬(commaChar ∈ childSelector.toList) then
        if ampChar ∈ childSelector.toList then replaceAllChar childSelector ampChar parentSelector
        else parentSelector ++ " " ++ childSelector
      else
        joinSep (", ") ((topLevelParts parentSelector).flatMap
          (fun parentPart => (topLevelParts childSelector).map
            (fun childPart => resolvePair parentPart childPart)))

/-- `resolveCssSelector`, earlier variant that always runs the top-level
split and cartesian expansion. -/
def resolveCssSelectorLegacy (selector parent : String) : String :=
  let childSelector := jsTrim selector
  if childSelector = "" then ""
  else
    let parentSelector := jsTrim parent
    if parentSelector = "" then childSelector
    else
      joinSep (", ") ((topLevelParts parentSelector).flatMap
        (fun parentPart => (topLevelParts childSelector).map
          (fun childPart => resolvePair parentPart childPart)))

theorem trimChars_eq_rdropWhile (l : List Char) :
    trimChars l = List.rdropWhile isSpace (l.dropWhile isSpace) := rfl

theorem dropWhile_head_false {α : Type} (p : α → Bool) (l : List α) (x : α) (xs : List α)
    (h : l.dropWhile p = x :: xs) : p x = false := by
  induction l with
  | nil => simp [List.dropWhile] at h
  | cons a as ih =>
    rw [List.dropWhile_cons] at h
    by_cases hp : p a
    · rw [if_pos hp] at h; exact ih h
    · rw [if_neg hp] at h
      obtain ⟨rfl, -⟩ : a = x ∧ as = xs := by simpa using h
      simpa using hp

theorem trimChars_idem (l : List Char) : trimChars (trimChars l) = trimChars l := by
  rw [trimChars_eq_rdropWhile l]
  rcases hT : List.rdropWhile isSpace (l.dropWhile isSpace) with _ | ⟨x, xs⟩
  · rfl
  · have hxa : isSpace x = false := by
      obtain ⟨t, ht⟩ := List.rdropWhile_prefix isSpace (l.dropWhile isSpace)
      rw [hT] at ht
      exact dropWhile_head_false isSpace l x (xs ++ t) (by rw [← ht]; simp)
    have hdw : (x :: xs).dropWhile isSpace = x :: xs := by
      rw [List.dropWhile_cons, if_neg (by simp [hxa])]
    calc trimChars (x :: xs)
        = List.rdropWhile isSpace ((x :: xs).dropWhile isSpace) := rfl
      _ = List.rdropWhile isSpace (x :: xs) := by rw [hdw]
      _ = x :: xs := by
            rw [← hT]
            exact List.rdropWhile_idempotent isSpace _

theorem trimChars_sublist (l : List Char) : (trimChars l).Sublist l := by
  rw [trimChars_eq_rdropWhile]
  exact ((List.rdropWhile_prefix isSpace (l.dropWhile isSpace)).sublist).trans
    ((List.dropWhile_suffix isSpace).sublist)

theorem jsTrim_mk_trimChars (l : List Char) :
    jsTrim (String.mk (trimChars l)) = String.mk (trimChars l) := by
  unfold jsTrim
  have : (String.mk (trimChars l)).toList = trimChars l := rfl
  rw [this, trimChars_idem]

theorem tlpGo_noComma (l : List Char) (cur : List Char) (pd bd : Int)
    (q : Option Char) (esc : Bool) (h : commaChar ∉ l) :
    tlpGo l cur pd bd q esc =
      if trimChars (cur ++ l) = [] then [] else [String.mk (trimChars (cur ++ l))] := by
  induction l generalizing cur pd bd q esc with
  | nil =>
    rw [tlpGo.eq_def]
    dsimp only
    rw [List.append_nil]
  | cons c rest ih =>
    have hc : ¬(c = commaChar) := by
      intro hcc
      exact h (hcc ▸ List.mem_cons_self c rest)
    have hrest : commaChar ∉ rest := fun hm => h (List.mem_cons_of_mem c hm)
    have key : ∀ (pd' bd' : Int) (q' : Option Char) (esc' : Bool),
        tlpGo rest (cur ++ [c]) pd' bd' q' esc' =
          if trimChars (cur ++ c :: rest) = [] then []
          else [String.mk (trimChars (cur ++ c :: rest))] := by
      intro pd' bd' q' esc'
      rw [ih (cur ++ [c]) pd' bd' q' esc' hrest]
      simp [List.append_assoc]
    rw [tlpGo.eq_def]
    dsimp only
    cases esc with
    | true => simpa using key pd bd q false
    | false =>
      simp only [Bool.false_eq_true, if_false]
      by_cases hbs : c = '\\'
      · rw [if_pos hbs]
        exact key pd bd q true
      · rw [if_neg hbs]
        cases q with
        | some qc =>
          dsimp only
          by_cases hq : c = qc
          · rw [if_pos hq]; exact key pd bd none false
          · rw [if_neg hq]; exact key pd bd (some qc) false
        | none =>
          dsimp only
          by_cases h1 : c = dquote ∨ c = squote
          · rw [if_pos h1]; exact key pd bd (some c) false
          · rw [if_neg h1]
            by_cases h2 : c = '('
            · rw [if_pos h2]; exact key (pd + 1) bd none false
            · rw [if_neg h2]
              by_cases h3 : c = ')'
              · rw [if_pos h3]; exact key (pd - 1) bd none false
              · rw [if_neg h3]
                by_cases h4 : c = '['
                · rw [if_pos h4]; exact key pd (bd + 1) none false
                · rw [if_neg h4]
                  by_cases h5 : c = ']'
                  · rw [if_pos h5]; exact key pd (bd - 1) none false
                  · rw [if_neg h5]
                    have h6 : ¬(c = commaChar ∧ pd = 0 ∧ bd = 0) := fun hx => hc hx.1
                    rw [if_neg h6]
                    exact key pd bd none false

theorem topLevelParts_noComma (s : String) (h : commaChar ∉ s.toList)
    (ht : trimChars s.toList = s.toList) (hne : s.toList ≠ []) :
    topLevelParts s = [s] := by
  unfold topLevelParts
  rw [tlpGo_noComma s.toList [] 0 0 none false h]
  rw [List.nil_append, ht]
  rw [if_neg hne]
  rfl

theorem expect_of_peek (t : TokType) (ts : List Tok) (h : peekType ts = some t) :
    ∃ tok rest, ts = tok :: rest ∧ tok.type = t ∧ expect t ts = Except.ok (tok, rest) := by
  match ts with
  | [] => simp [peekType] at h
  | tok :: rest =>
    have htok : tok.type = t := by simpa [peekType] using h
    exact ⟨tok, rest, rfl, htok, by simp [expect, htok]⟩

theorem parseCssDeclaration_ok (prop : String) (ts : List Tok)
    (h : peekType ts = some TokType.colon) :
    ∃ r, parseCssDeclaration prop ts = Except.ok r ∧ r.2.length < ts.length := by
  obtain ⟨tok, rest, rfl, htok, hexp⟩ := expect_of_peek _ ts h
  unfold parseCssDeclaration
  rw [hexp]
  dsimp only
  refine ⟨_, rfl, ?_⟩
  have hru := length_readUntil_le [TokType.semicolon, TokType.braceClose] rest
  by_cases hs :
      peekType (readUntil [TokType.semicolon, TokType.braceClose] rest).2 = some TokType.semicolon
  · rw [if_pos hs]
    have := List.length_tail (readUntil [TokType.semicolon, TokType.braceClose] rest).2
    simp only [List.length_cons]
    omega
  · rw [if_neg hs]
    simp only [List.length_cons]
    omega

theorem parserTotalAux (f : Nat) :
    (∀ (b : Bool) (ts : List Tok), 3 * ts.length < f →
      ∃ r, parseCssNodes f b ts = Except.ok r ∧ r.2.length ≤ ts.length)
    ∧ (∀ ts : List Tok, peekType ts = some TokType.at → 3 * ts.length ≤ f →
      ∃ r, parseCssAtRule f ts = Except.ok r ∧ r.2.length < ts.length)
    ∧ (∀ (sel : String) (ts : List Tok), peekType ts = some TokType.braceOpen →
        3 * ts.length ≤ f →
      ∃ r, parseCssRule f sel ts = Except.ok r ∧ r.2.length < ts.length) := by
  induction f using Nat.strong_induction_on with
  | _ f ih =>
    refine ⟨?_, ?_, ?_⟩
    · -- parseCssNodes never fails and only consumes tokens
      intro b ts hf
      cases f with
      | zero => omega
      | succ f' =>
        obtain ⟨ihN, ihA, ihR⟩ := ih f' (Nat.lt_succ_self f')
        cases ts with
        | nil => exact ⟨([], []), rfl, by simp⟩
        | cons tok rest =>
          simp only [List.length_cons] at hf
          rw [parseCssNodes]
          by_cases h1 : (b ∧ tok.type = TokType.braceClose)
          · rw [if_pos h1]
            exact ⟨([], rest), rfl, by simp⟩
          · rw [if_neg h1]
            by_cases h2 : tok.type = TokType.semicolon
            · rw [if_pos h2]
              obtain ⟨r, hr, hrl⟩ := ihN b rest (by omega)
              exact ⟨r, hr, by simp only [List.length_cons]; omega⟩
            · rw [if_neg h2]
              by_cases h3 : tok.type = TokType.at
              · rw [if_pos h3]
                obtain ⟨ra, hra, hral⟩ := ihA (tok :: rest)
                    (by simp [peekType, h3]) (by simp only [List.length_cons]; omega)
                rw [hra]
                dsimp only
                simp only [List.length_cons] at hral
                obtain ⟨rn, hrn, hrnl⟩ := ihN b ra.2 (by omega)
                rw [hrn]
                dsimp only
                exact ⟨(ra.1 :: rn.1, rn.2), rfl, by simp only [List.length_cons]; omega⟩
              · rw [if_neg h3]
                dsimp only
                have hk := length_readCssKeyOrSelector_le (tok :: rest)
                simp only [List.length_cons] at hk
                by_cases h4 : (readCssKeyOrSelector (tok :: rest)).1 = ""
                · rw [if_pos h4]
                  have ht := List.length_tail (readCssKeyOrSelector (tok :: rest)).2
                  obtain ⟨r, hr, hrl⟩ :=
                    ihN b (readCssKeyOrSelector (tok :: rest)).2.tail (by omega)
                  exact ⟨r, hr, by simp only [List.length_cons]; omega⟩
                · rw [if_neg h4]
                  by_cases h5 :
                      peekType (readCssKeyOrSelector (tok :: rest)).2 = some TokType.colon
                  · rw [if_pos h5]
                    obtain ⟨rd, hrd, hrdl⟩ := parseCssDeclaration_ok _ _ h5
                    rw [hrd]
                    dsimp only
                    obtain ⟨rn, hrn, hrnl⟩ := ihN b rd.2 (by omega)
                    rw [hrn]
                    dsimp only
                    exact ⟨(rd.1 :: rn.1, rn.2), rfl, by simp only [List.length_cons]; omega⟩
                  · rw [if_neg h5]
                    by_cases h6 :
                        peekType (readCssKeyOrSelector (tok :: rest)).2 = some TokType.braceOpen
                    · rw [if_pos h6]
                      obtain ⟨rr, hrr, hrrl⟩ := ihR (readCssKeyOrSelector (tok :: rest)).1
                          (readCssKeyOrSelector (tok :: rest)).2 h6 (by omega)
                      rw [hrr]
                      dsimp only
                      obtain ⟨rn, hrn, hrnl⟩ := ihN b rr.2 (by omega)
                      rw [hrn]
                      dsimp only
                      exact ⟨(rr.1 :: rn.1, rn.2), rfl, by simp only [List.length_cons]; omega⟩
                    · rw [if_neg h6]
                      have ht := List.length_tail (readCssKeyOrSelector (tok :: rest)).2
                      obtain ⟨r, hr, hrl⟩ :=
                        ihN b (readCssKeyOrSelector (tok :: rest)).2.tail (by omega)
                      exact ⟨r, hr, by simp only [List.length_cons]; omega⟩
    · -- parseCssAtRule succeeds whenever the cursor is at an `at` token
      intro ts hpeek hf
      obtain ⟨tok, rest, rfl, htok, hexp⟩ := expect_of_peek _ ts hpeek
      simp only [List.length_cons] at hf
      cases f with
      | zero => omega
      | succ f' =>
        rw [parseCssAtRule]
        rw [hexp]
        dsimp only
        have hhv := length_readUntil_le [TokType.semicolon, TokType.braceOpen] rest
        by_cases hp :
            peekType (readUntil [TokType.semicolon, TokType.braceOpen] rest).2
              = some TokType.params
        · rw [if_pos hp]
          obtain ⟨tok2, rest2, hHV, htok2, hexp2⟩ := expect_of_peek _ _ hp
          rw [hexp2]
          dsimp only
          have hlen2 : (readUntil [TokType.semicolon, TokType.braceOpen] rest).2.length
              = rest2.length + 1 := by rw [hHV]; simp
          by_cases hb : peekType rest2 = some TokType.braceOpen
          · rw [if_pos hb]
            cases f' with
            | zero => omega
            | succ f'' =>
              rw [parseCssBlock]
              obtain ⟨ihN'', -, -⟩ := ih f'' (by omega)
              obtain ⟨rb, hrb, hrbl⟩ := ihN'' true rest2 (by omega)
              rw [hrb]
              dsimp only
              refine ⟨_, rfl, ?_⟩
              simp only [List.length_cons]
              omega
          · rw [if_neg hb]
            by_cases hsc : peekType rest2 = some TokType.semicolon
            · rw [if_pos hsc]
              refine ⟨_, rfl, ?_⟩
              have := List.length_tail rest2
              simp only [List.length_cons]
              omega
            · rw [if_neg hsc]
              refine ⟨_, rfl, ?_⟩
              simp only [List.length_cons]
              omega
        · rw [if_neg hp]
          dsimp only
          by_cases hb :
              peekType (readUntil [TokType.semicolon, TokType.braceOpen] rest).2
                = some TokType.braceOpen
          · rw [if_pos hb]
            cases f' with
            | zero => omega
            | succ f'' =>
              rw [parseCssBlock]
              obtain ⟨ihN'', -, -⟩ := ih f'' (by omega)
              obtain ⟨rb, hrb, hrbl⟩ :=
                ihN'' true (readUntil [TokType.semicolon, TokType.braceOpen] rest).2 (by omega)
              rw [hrb]
              dsimp only
              refine ⟨_, rfl, ?_⟩
              simp only [List.length_cons]
              omega
          · rw [if_neg hb]
            by_cases hsc :
                peekType (readUntil [TokType.semicolon, TokType.braceOpen] rest).2
                  = some TokType.semicolon
            · rw [if_pos hsc]
              refine ⟨_, rfl, ?_⟩
              have := List.length_tail (readUntil [TokType.semicolon, TokType.braceOpen] rest).2
              simp only [List.length_cons]
              omega
            · rw [if_neg hsc]
              refine ⟨_, rfl, ?_⟩
              simp only [List.length_cons]
              omega
    · -- parseCssRule succeeds whenever the cursor is at a `braceOpen` token
      intro sel ts hpeek hf
      obtain ⟨tok, rest, rfl, htok, hexp⟩ := expect_of_peek _ ts hpeek
      simp only [List.length_cons] at hf
      cases f with
      | zero => omega
      | succ f' =>
        rw [parseCssRule]
        rw [hexp]
        dsimp only
        cases f' with
        | zero => omega
        | succ f'' =>
          rw [parseCssBlock]
          obtain ⟨ihN'', -, -⟩ := ih f'' (by omega)
          obtain ⟨rb, hrb, hrbl⟩ := ihN'' true rest (by omega)
          rw [hrb]
          dsimp only
          refine ⟨_, rfl, ?_⟩
          simp only [List.length_cons]
          omega

theorem mk_toList (s : String) : String.mk s.toList = s := rfl

theorem tokStep_text_good (cs : List Char) (v : String) (rest : List Char)
    (h : tokStep cs = some (some (Tok.text v), rest)) :
    v ≠ "" ∧ jsTrim v = v ∧ ∀ c ∈ v.toList, isBoundaryChar c = false := by
  unfold tokStep at h
  rcases hmatch : cs.dropWhile isSpace with _ | ⟨c, ds⟩
  · rw [hmatch] at h; exact absurd h (by simp)
  rw [hmatch] at h
  dsimp only at h
  split at h
  · simp at h
  split at h
  · simp at h
  split at h
  · simp at h
  split at h
  · simp at h
  split at h
  · simp at h
  split at h
  · simp at h
  split at h
  · simp at h
  split at h
  · simp at h
  split at h
  · simp at h
  split at h
  · -- the text-emitting branch
    rename_i hguard
    simp only [Option.some.injEq, Prod.mk.injEq, Tok.text.injEq] at h
    obtain ⟨hveq, -⟩ := h
    subst hveq
    refine ⟨?_, jsTrim_mk_trimChars _, ?_⟩
    · intro hcon
      have hnil : trimChars ((c :: ds).takeWhile (fun ch => !isBoundaryChar ch)) = [] := by
        simpa using congrArg String.toList hcon
      exact hguard hnil
    · intro ch hch
      have hraw : ch ∈ (c :: ds).takeWhile (fun ch => !isBoundaryChar ch) :=
        (trimChars_sublist _).subset hch
      have := List.mem_takeWhile_imp hraw
      simpa using this
  · simp at h

theorem tokenizeLoop_text_good (fuel : Nat) (cs : List Char) (v : String)
    (h : Tok.text v ∈ tokenizeLoop fuel cs) :
    v ≠ "" ∧ jsTrim v = v ∧ ∀ c ∈ v.toList, isBoundaryChar c = false := by
  induction fuel generalizing cs with
  | zero => simp [tokenizeLoop] at h
  | succ fuel ih =>
    rw [tokenizeLoop] at h
    rcases hstep : tokStep cs with _ | ⟨o, rest⟩
    · rw [hstep] at h; simp at h
    · rw [hstep] at h
      cases o with
      | none =>
        dsimp only at h
        exact ih rest h
      | some t =>
        dsimp only at h
        rcases List.mem_cons.mp h with heq | hmem
        · rw [← heq] at hstep
          exact tokStep_text_good cs v rest hstep
        · exact ih rest hmem

theorem tokenizeLoop_length_le (fuel : Nat) (cs : List Char) :
    (tokenizeLoop fuel cs).length ≤ cs.length := by
  induction fuel generalizing cs with
  | zero => simp [tokenizeLoop]
  | succ fuel ih =>
    rw [tokenizeLoop]
    rcases hstep : tokStep cs with _ | ⟨o, rest⟩
    · simp
    · have := tokStep_progress cs o rest hstep
      cases o with
      | none =>
        dsimp only
        exact le_trans (ih rest) (by omega)
      | some t =>
        dsimp only
        simp only [List.length_cons]
        have := ih rest
        omega

theorem topLevelParts_jsTrim_noComma (s : String) (h : commaChar ∉ (jsTrim s).toList)
    (hne : jsTrim s ≠ "") : topLevelParts (jsTrim s) = [jsTrim s] := by
  apply topLevelParts_noComma _ h
  · exact trimChars_idem s.toList
  · intro hnil
    apply hne
    have h2 := congrArg String.mk hnil
    rw [mk_toList] at h2
    exact h2

/-- C1: for every input string, the public parse entry `parseCss` returns a
stylesheet AST without any error: every `expect` call reachable from it
(`at`, `colon`, `braceOpen`, `params`) is guarded by a peek check, so the
failure branch of `expect` is unreachable through `parseCss`. -/
theorem parseCss_never_fails (s : String) :
    ∃ sheet, parseCss s = Except.ok sheet := by
  unfold parseCss
  obtain ⟨r, hr, -⟩ :=
    (parserTotalAux (3 * (tokenizeCss s).length + 1)).1 false (tokenizeCss s) (by omega)
  dsimp only
  rw [hr]
  exact ⟨⟨r.1⟩, rfl⟩

/-- C2: `parseCssAtRule` on the tokens of an at-rule directive yields the
directive form (`params` absent, `body` null), on an explicitly empty block
it yields `body` equal to the empty list, and on a populated block a
nonempty list: the three body states stay distinct. -/
theorem parseCssAtRule_directive_vs_block :
    parseCssAtRule 10 (tokenizeCss ("@charset;"))
      = Except.ok (Node.atRule ("charset") none none, [])
    ∧ parseCssAtRule 30 (tokenizeCss ("@media (max-width:100px)\x7b\x7d"))
      = Except.ok (Node.atRule ("media") (some ("(max-width:100px)")) (some []), [])
    ∧ parseCssAtRule 30 (tokenizeCss ("@media (max-width:100px)\x7ba:b;\x7d"))
      = Except.ok (Node.atRule ("media") (some ("(max-width:100px)"))
          (some [Node.declaration ("a") ("b")]), []) :=
  ⟨rfl, rfl, rfl⟩

/-- C3: on the tokens of a declaration whose key looks like a selector, the
speculative selector read is rejected (no `braceOpen` follows), the cursor
is reset, and the fallback key read returns the text before the first
`colon`, leaving the cursor exactly at that first colon. -/
theorem readCssKeyOrSelector_first_colon_fallback :
    tokenizeCss ("a:hover: 1;")
      = [Tok.text ("a"), Tok.colon, Tok.text ("hover"), Tok.colon,
         Tok.text ("1"), Tok.semicolon]
    ∧ readCssKeyOrSelector (tokenizeCss ("a:hover: 1;"))
      = ("a", [Tok.colon, Tok.text ("hover"), Tok.colon, Tok.text ("1"), Tok.semicolon])
    ∧ (readCssKeyOrSelector (tokenizeCss ("a:hover: 1;"))).2
      = (tokenizeCss ("a:hover: 1;")).drop 1 :=
  ⟨rfl, rfl, rfl⟩

/-- C4 (counterexample): `readUntil` inserts a separating space before a
`text` token whenever the accumulated result is nonempty, not only between
two consecutive `text` tokens: after a `string` token the text payload is
still preceded by a space. -/
theorem readUntil_space_after_string_cex :
    readUntil [] [Tok.string ("s"), Tok.text ("a")] = ("\x22s\x22 a", [])
    ∧ ("\x22s\x22 a" : String) ≠ "\x22s\x22a" :=
  ⟨rfl, by decide⟩

/-- C4 (amended): `readUntil` stops exactly at the first stop-type token
(or EOF), leaving it unconsumed, and the returned string is the trimmed
left fold of `readUntilAcc` over the consumed prefix: a single space before
a `text` token whenever the accumulated result is nonempty, `string`
payloads wrapped in double quotes, `params` payloads appended verbatim,
other token types contributing nothing. -/
theorem readUntil_characterization (stop : List TokType) (ts : List Tok) :
    readUntil stop ts =
      (String.mk (trimChars
        ((ts.takeWhile (fun t => !decide (t.type ∈ stop))).foldl readUntilAcc [])),
       ts.dropWhile (fun t => !decide (t.type ∈ stop))) := by
  unfold readUntil
  rw [readUntilGo_eq]

/-- C5 (counterexample): stringify-parse-stringify is not the identity on
arbitrary stylesheet ASTs (a declaration value containing a semicolon loses
its tail through one re-parse), and a rule with an empty selector but a
nonempty body is emitted rather than pruned. -/
theorem stringify_reparse_cex :
    stringifyCss ⟨[Node.declaration ("color") ("red;blue")]⟩ = "color:red;blue;"
    ∧ (parseCss ("color:red;blue;")).map stringifyCss = Except.ok ("color:red;")
    ∧ ("color:red;" : String) ≠ "color:red;blue;"
    ∧ stringifyCss ⟨[Node.rule ("") [Node.declaration ("color") ("red")]]⟩
        = "\x7bcolor:red;\x7d" :=
  ⟨rfl, rfl, by decide, rfl⟩

/-- C5 (amended): the stringifier prunes by emptiness of the recursively
stringified content only: a rule or block at-rule is emitted exactly when
its stringified body is nonempty (so the stringifier itself never builds an
empty brace block), and a declaration exactly when its trimmed value is
nonempty; raw selector strings are not inspected, and idempotence through
one re-parse holds only for ASTs whose raw strings avoid structural
delimiters. -/
theorem stringify_pruning (sel name p v : String) (ps : Option String) (body : List Node) :
    (stringifyNode (Node.rule sel body) = "" ↔ stringifyList body = "")
    ∧ (stringifyList body ≠ "" →
        stringifyNode (Node.rule sel body)
          = sel ++ "\x7b" ++ stringifyList body ++ "\x7d")
    ∧ (stringifyNode (Node.atRule name ps (some body)) = "" ↔ stringifyList body = "")
    ∧ (stringifyList body ≠ "" →
        stringifyNode (Node.atRule name ps (some body))
          = "@" ++ name ++ atRuleParams ps ++ "\x7b" ++ stringifyList body ++ "\x7d")
    ∧ (stringifyNode (Node.declaration p v) = "" ↔ jsTrim v = "")
    ∧ (jsTrim v ≠ "" →
        stringifyNode (Node.declaration p v) = p ++ ":" ++ jsTrim v ++ ";") := by
  have hrule : stringifyList body ≠ "" →
      stringifyNode (Node.rule sel body)
        = sel ++ "\x7b" ++ stringifyList body ++ "\x7d" := by
    intro hb
    simp only [stringifyNode]
    rw [if_neg hb]
  have hat : stringifyList body ≠ "" →
      stringifyNode (Node.atRule name ps (some body))
        = "@" ++ name ++ atRuleParams ps ++ "\x7b" ++ stringifyList body ++ "\x7d" := by
    intro hb
    simp only [stringifyNode]
    rw [if_neg hb]
  have hdecl : jsTrim v ≠ "" →
      stringifyNode (Node.declaration p v) = p ++ ":" ++ jsTrim v ++ ";" := by
    intro hv
    simp only [stringifyNode]
    rw [if_neg hv]
  refine ⟨⟨?_, ?_⟩, hrule, ⟨?_, ?_⟩, hat, ⟨?_, ?_⟩, hdecl⟩
  · intro h0
    by_contra hb
    rw [hrule hb] at h0
    have hl := congrArg String.length h0
    simp only [String.length_append] at hl
    have h1 : ("\x7b" : String).length = 1 := rfl
    have h2 : ("\x7d" : String).length = 1 := rfl
    have h3 : ("" : String).length = 0 := rfl
    omega
  · intro hb
    simp only [stringifyNode]
    rw [if_pos hb]
  · intro h0
    by_contra hb
    rw [hat hb] at h0
    have hl := congrArg String.length h0
    simp only [String.length_append] at hl
    have h1 : ("@" : String).length = 1 := rfl
    have h2 : ("\x7b" : String).length = 1 := rfl
    have h3 : ("\x7d" : String).length = 1 := rfl
    have h4 : ("" : String).length = 0 := rfl
    omega
  · intro hb
    simp only [stringifyNode]
    rw [if_pos hb]
  · intro h0
    by_contra hv
    rw [hdecl hv] at h0
    have hl := congrArg String.length h0
    simp only [String.length_append] at hl
    have h1 : (":" : String).length = 1 := rfl
    have h2 : (";" : String).length = 1 := rfl
    have h3 : ("" : String).length = 0 := rfl
    omega
  · intro hv
    simp only [stringifyNode]
    rw [if_pos hv]

/-- C5 witness: the amended pruning applied at concrete nodes, discharging
the nonempty-body hypothesis. -/
theorem stringify_pruning_witness :
    stringifyList [Node.declaration ("color") ("red")] ≠ ""
    ∧ stringifyNode (Node.rule (".btn") [Node.declaration ("color") ("red")])
        = ".btn" ++ "\x7b" ++ stringifyList [Node.declaration ("color") ("red")] ++ "\x7d" := by
  have h := stringify_pruning (".btn") ("media") ("color") ("red") none
      [Node.declaration ("color") ("red")]
  exact ⟨by decide, h.2.1 (by decide)⟩

/-- C6 (counterexample): a pair with `&` in the child part is not resolved
by replacing each `&` with the parent part verbatim: the parent part is a
JS replacement template, so a parent containing a dollar pattern is not
inserted literally — for child containing `&` and parent consisting of a
dollar and an ampersand, the dollar-ampersand pattern denotes the matched
`&` itself, and the program returns the child unchanged instead of the
string that verbatim replacement would give. -/
theorem resolveCssSelector_dollar_cex :
    resolveCssSelector ("&x") ("$&") = "&x"
    ∧ ("&x" : String) ≠ "$&x" :=
  ⟨rfl, by decide⟩

/-- C6 (amended): for nonempty trimmed inputs, `resolveCssSelector` is the
cartesian expansion over top-level comma-separated parts, parent parts in
the outer loop and child parts in the inner loop, each pair resolved by
`resolvePair`: when the child part contains `&`, each `&` is replaced by
the parent part processed as a JS replacement template (`getSubstitutionGo`,
where doubled dollars, dollar-ampersand, dollar-backquote and dollar-quote
are substitution patterns and a dollar-free parent is inserted verbatim);
otherwise descendant concatenation; all results joined by a comma and a
space; including the two concrete expansions from the specification. -/
theorem resolveCssSelector_cartesian (child parent : String)
    (hc : jsTrim child ≠ "") (hp : jsTrim parent ≠ "") :
    resolveCssSelector child parent =
      joinSep (", ") ((topLevelParts (jsTrim parent)).flatMap
        (fun parentPart => (topLevelParts (jsTrim child)).map
          (fun childPart => resolvePair parentPart childPart)))
    ∧ resolveCssSelector (".x, .y") (".a, .b") = ".a .x, .a .y, .b .x, .b .y"
    ∧ resolveCssSelector ("&:hover") (".btn") = ".btn:hover" := by
  refine ⟨?_, rfl, rfl⟩
  unfold resolveCssSelector
  dsimp only
  rw [if_neg hc, if_neg hp]
  by_cases hcomma :
      (¬(commaChar ∈ (jsTrim parent).toList) ∧ ¬(commaChar ∈ (jsTrim child).toList))
  · rw [if_pos hcomma]
    obtain ⟨hpc, hcc⟩ := hcomma
    rw [topLevelParts_jsTrim_noComma parent hpc hp,
        topLevelParts_jsTrim_noComma child hcc hc]
    rfl
  · rw [if_neg hcomma]

/-- C6 witness: the cartesian characterization applied at the concrete
spec example. -/
theorem resolveCssSelector_cartesian_witness :
    jsTrim (".x, .y") ≠ "" ∧ jsTrim (".a, .b") ≠ "" ∧
      resolveCssSelector (".x, .y") (".a, .b") = ".a .x, .a .y, .b .x, .b .y" := by
  refine ⟨by decide, by decide, ?_⟩
  exact (resolveCssSelector_cartesian (".x, .y") (".a, .b") (by decide) (by decide)).2.1

/-- C7: the variant of the resolver with the no-comma fast path agrees with
the general-path-only variant on every pair of inputs. -/
theorem resolveCssSelector_fast_path_equiv (child parent : String) :
    resolveCssSelector child parent = resolveCssSelectorLegacy child parent := by
  unfold resolveCssSelector resolveCssSelectorLegacy
  dsimp only
  by_cases hc : jsTrim child = ""
  · rw [if_pos hc, if_pos hc]
  · rw [if_neg hc, if_neg hc]
    by_cases hp : jsTrim parent = ""
    · rw [if_pos hp, if_pos hp]
    · rw [if_neg hp, if_neg hp]
      by_cases hcomma :
          (¬(commaChar ∈ (jsTrim parent).toList) ∧ ¬(commaChar ∈ (jsTrim child).toList))
      · rw [if_pos hcomma]
        obtain ⟨hpc, hcc⟩ := hcomma
        rw [topLevelParts_jsTrim_noComma parent hpc hp,
            topLevelParts_jsTrim_noComma child hcc hc]
        rfl
      · rw [if_neg hcomma]

/-- C8: the tokenizer terminates on every input: its fuelled main loop is
stable under any fuel at least the input length (so `tokenizeCss`, which
runs it at exactly the input length, is its limit), and the returned token
list is finite with at most one token per input character. -/
theorem tokenizeCss_terminates (s : String) (fuel : Nat)
    (h : s.toList.length ≤ fuel) :
    tokenizeLoop fuel s.toList = tokenizeCss s
    ∧ (tokenizeCss s).length ≤ s.toList.length :=
  ⟨tokenizeLoop_congr fuel s.toList.length s.toList h (le_refl _),
   tokenizeLoop_length_le s.toList.length s.toList⟩

/-- C8 witness: fuel stability at a concrete truncated-comment input. -/
theorem tokenizeCss_terminates_witness :
    ("a /* x").toList.length ≤ 100
    ∧ (tokenizeLoop 100 (("a /* x").toList) = tokenizeCss ("a /* x")
        ∧ (tokenizeCss ("a /* x")).length ≤ ("a /* x").toList.length) :=
  ⟨by decide, tokenizeCss_terminates ("a /* x") 100 (by decide)⟩

/-- C9: a bare slash that opens no comment is a boundary character, so the
text read returns empty and the main loop advances one character without
emitting a token; in particular two text tokens result from a slash-
separated pair of words. -/
theorem tokenizeCss_bare_slash (cs : List Char)
    (h1 : cs.head? ≠ some '/') (h2 : cs.head? ≠ some '*') :
    tokStep ('/' :: cs) = some (none, cs)
    ∧ tokenizeCss ("a / b") = [Tok.text ("a"), Tok.text ("b")] := by
  constructor
  · unfold tokStep
    have hds : ('/' :: cs).dropWhile isSpace = '/' :: cs := by
      rw [List.dropWhile_cons, if_neg (by decide)]
    rw [hds]
    dsimp only
    rw [if_neg (fun hx => h1 hx.2), if_neg (fun hx => h2 hx.2)]
    rw [if_neg (by decide), if_neg (by decide), if_neg (by decide),
        if_neg (by decide), if_neg (by decide), if_neg (by decide),
        if_neg (by decide)]
    have htw : ('/' :: cs).takeWhile (fun ch => !isBoundaryChar ch) = [] := by
      rw [List.takeWhile_cons, if_neg (by decide)]
    have hdw : ('/' :: cs).dropWhile (fun ch => !isBoundaryChar ch) = '/' :: cs := by
      rw [List.dropWhile_cons, if_neg (by decide)]
    rw [htw, hdw]
    rw [if_neg (by decide)]
    rfl
  · rfl

/-- C9 witness: the fallback advance applied at a concrete suffix. -/
theorem tokenizeCss_bare_slash_witness :
    ((' ' :: ['b'] : List Char).head? ≠ some '/')
    ∧ ((' ' :: ['b'] : List Char).head? ≠ some '*')
    ∧ tokStep ('/' :: (' ' :: ['b'])) = some (none, ' ' :: ['b']) := by
  refine ⟨by decide, by decide, ?_⟩
  exact (tokenizeCss_bare_slash (' ' :: ['b']) (by decide) (by decide)).1

/-- C10: every `text` token produced by `tokenizeCss` carries a nonempty
value that is its own trim (no leading or trailing whitespace) and contains
no boundary character. -/
theorem tokenizeCss_text_token_invariant (s : String) (v : String)
    (h : Tok.text v ∈ tokenizeCss s) :
    v ≠ "" ∧ jsTrim v = v ∧ ∀ c ∈ v.toList, isBoundaryChar c = false :=
  tokenizeLoop_text_good _ _ _ h

/-- C10 witness: the invariant applied at a concrete token of a concrete
input. -/
theorem tokenizeCss_text_token_invariant_witness :
    (Tok.text ("a b") ∈ tokenizeCss ("x: a b;"))
    ∧ (("a b" : String) ≠ "" ∧ jsTrim ("a b") = "a b"
        ∧ ∀ c ∈ ("a b" : String).toList, isBoundaryChar c = false) :=
  ⟨by decide, tokenizeCss_text_token_invariant ("x: a b;") ("a b") (by decide)⟩
